import Mathlib

/-!
Verification of the quote-repair filter of `csvutils/delimited.py`.

The development shallowly embeds, over `List Char`:

* Python's `str.replace('\0', ' ')`, `str.count`, `in`, and `str.strip`
  (`pyReplaceChar`, `countSub`, membership, `pyStrip`);
* the single-line behaviour of `csv.reader` with `escapechar=None`,
  `doublequote=True`, `quoting=QUOTE_MINIMAL`, `skipinitialspace=True`
  (`step`, `processChars`, `finishLine`, `parseLine`), mirroring the state
  machine of CPython's `Modules/_csv.c` (Python 3.11);
* `csv.writer.writerow` for the same dialect, whose line terminator is the
  dialect default `"\r\n"` (`serField`, `writeRow`);
* `Reader._process` (`readerProcess`), the repair filter
  `NoMultilineQuotedReader._process` (`repair`), and the `Reader.reset`
  lifecycle (`resetReader`).
-/

namespace CsvUtils

/-- Python `line.replace(old, new)` for single-character `old`/`new`. -/
def pyReplaceChar (old new : Char) (l : List Char) : List Char :=
  l.map fun c => if c = old then new else c

/-- The NUL-to-space substitution `line.replace('\0', ' ')` shared by
`Reader._process` and `NoMultilineQuotedReader._process`. -/
def nulsub (l : List Char) : List Char := pyReplaceChar '\x00' ' ' l

/-- `Reader._process`: the base reader only replaces NUL characters. -/
def readerProcess (line : List Char) : List Char := nulsub line

/-- Fuelled helper for `countSub`; the fuel only forces structural recursion
and is irrelevant once it is at least the length of the haystack. -/
def countSubFuel (pat : List Char) : Nat → List Char → Nat
  | 0, _ => 0
  | _ + 1, [] => 0
  | fuel + 1, c :: rest =>
    if pat.isPrefixOf (c :: rest) then
      1 + countSubFuel pat fuel (rest.drop (pat.length - 1))
    else
      countSubFuel pat fuel rest

/-- Python `haystack.count(pat)` for a nonempty `pat`: the number of
non-overlapping occurrences, scanning greedily from the left. -/
def countSub (pat l : List Char) : Nat := countSubFuel pat l.length l

/-- Codepoints for which Python's `str.strip()` trims a character
(CPython's `Py_UNICODE_ISSPACE`). -/
def pyIsSpace (c : Char) : Bool :=
  ([9, 10, 11, 12, 13, 28, 29, 30, 31, 32, 133, 160, 5760,
    8192, 8193, 8194, 8195, 8196, 8197, 8198, 8199, 8200, 8201, 8202,
    8232, 8233, 8239, 8287, 12288] : List Nat).contains c.toNat

/-- Python `line.strip()`. -/
def pyStrip (l : List Char) : List Char :=
  ((l.dropWhile pyIsSpace).reverse.dropWhile pyIsSpace).reverse

/-- States of the `_csv.c` reader state machine. `startRecord` only occurs
before the first character of a line. -/
inductive PState where
  | startRecord
  | startField
  | inField
  | inQuoted
  | quoteInQuoted
  | eatCrnl
deriving DecidableEq

/-- Parser state: machine state, characters of the current field so far, and
the fields already completed (most recent first). -/
structure PSt where
  st : PState
  cur : List Char
  fields : List (List Char)
deriving DecidableEq

/-- The hard parse errors `csv.reader` can raise on a single line with
`escapechar=None`. -/
inductive CsvErr where
  | newlineInUnquoted
  | strictQuote
  | unexpectedEnd
deriving DecidableEq

/-- The `START_FIELD` case of `parse_process_char` (also reached from
`START_RECORD` on a non-newline character). Branch order follows the C
source: newline, quote char, skip-initial-space, delimiter, default. -/
def stepStartField (d q : Char) (s : PSt) (c : Char) : Except CsvErr PSt :=
  if c = '\n' ∨ c = '\r' then .ok ⟨.eatCrnl, [], s.cur :: s.fields⟩
  else if c = q then .ok ⟨.inQuoted, s.cur, s.fields⟩
  else if c = ' ' then .ok ⟨.startField, s.cur, s.fields⟩
  else if c = d then .ok ⟨.startField, [], s.cur :: s.fields⟩
  else .ok ⟨.inField, s.cur ++ [c], s.fields⟩

/-- One step of `parse_process_char` on an ordinary character, for delimiter
`d`, quote char `q`, `strict` mode, `quoting=QUOTE_MINIMAL`,
`doublequote=True`, `escapechar=None`, `skipinitialspace=True`. -/
def step (d q : Char) (strict : Bool) (s : PSt) (c : Char) : Except CsvErr PSt :=
  match s.st with
  | .startRecord =>
    if c = '\n' ∨ c = '\r' then .ok ⟨.eatCrnl, s.cur, s.fields⟩
    else stepStartField d q s c
  | .startField => stepStartField d q s c
  | .inField =>
    if c = '\n' ∨ c = '\r' then .ok ⟨.eatCrnl, [], s.cur :: s.fields⟩
    else if c = d then .ok ⟨.startField, [], s.cur :: s.fields⟩
    else .ok ⟨.inField, s.cur ++ [c], s.fields⟩
  | .inQuoted =>
    if c = q then .ok ⟨.quoteInQuoted, s.cur, s.fields⟩
    else .ok ⟨.inQuoted, s.cur ++ [c], s.fields⟩
  | .quoteInQuoted =>
    if c = q then .ok ⟨.inQuoted, s.cur ++ [c], s.fields⟩
    else if c = d then .ok ⟨.startField, [], s.cur :: s.fields⟩
    else if c = '\n' ∨ c = '\r' then .ok ⟨.eatCrnl, [], s.cur :: s.fields⟩
    else if strict then .error .strictQuote
    else .ok ⟨.inField, s.cur ++ [c], s.fields⟩
  | .eatCrnl =>
    if c = '\n' ∨ c = '\r' then .ok s
    else .error .newlineInUnquoted

/-- Run `step` over a list of characters. -/
def processChars (d q : Char) (strict : Bool) : PSt → List Char → Except CsvErr PSt
  | s, [] => .ok s
  | s, c :: rest =>
    match step d q strict s c with
    | .error e => .error e
    | .ok s' => processChars d q strict s' rest

/-- End-of-line and end-of-input handling of `Reader_iternext`: the EOL
pseudo-character, then (only possible in `inQuoted`) end of input, which in
non-strict mode saves the dangling field and in strict mode is an error. -/
def finishLine (strict : Bool) (s : PSt) : Except CsvErr (List (List Char)) :=
  match s.st with
  | .startRecord => .ok s.fields.reverse
  | .startField => .ok (s.cur :: s.fields).reverse
  | .inField => .ok (s.cur :: s.fields).reverse
  | .quoteInQuoted => .ok (s.cur :: s.fields).reverse
  | .eatCrnl => .ok s.fields.reverse
  | .inQuoted =>
    if strict then .error .unexpectedEnd else .ok (s.cur :: s.fields).reverse

/-- `next(csv.reader((line,), ...))` specialised to a single input string:
the row parsed from `l`, or the parse error. -/
def parseLine (d q : Char) (strict : Bool) (l : List Char) :
    Except CsvErr (List (List Char)) :=
  match processChars d q strict ⟨.startRecord, [], []⟩ l with
  | .error e => .error e
  | .ok s => finishLine strict s

/-- `csv.writer`, `QUOTE_MINIMAL`: a field is quoted iff it contains the
delimiter, the quote char, or a character of the line terminator `"\r\n"`. -/
def fieldNeedsQuote (d q : Char) (f : List Char) : Bool :=
  f.any fun c => c == d || c == q || c == '\r' || c == '\n'

/-- Double every embedded quote char (`doublequote=True`). -/
def doubleQ (q : Char) (f : List Char) : List Char :=
  f.flatMap fun c => if c = q then [q, q] else [c]

/-- One serialised field of `csv.writer.writerow`. -/
def serField (d q : Char) (f : List Char) : List Char :=
  if fieldNeedsQuote d q f then q :: (doubleQ q f ++ [q]) else f

/-- `csv.writer.writerow` without the trailing line terminator: fields joined
by the delimiter, with `_csv.c`'s special case quoting a record that consists
of a single empty unquoted field. -/
def writeRow (d q : Char) (fields : List (List Char)) : List Char :=
  if fields.length ≠ 0 ∧ List.intercalate [d] (fields.map (serField d q)) = []
  then [q, q]
  else List.intercalate [d] (fields.map (serField d q))

/-- The step-4 cheap safety check of `NoMultilineQuotedReader._process` on an
already NUL-substituted line with at least one quote char: branch on whether
a backslash occurs anywhere, count escaped quotes and (escape-adjusted)
quote-plus-delimiter pairs, and pass the line through when the relevant count
matches the total quote count. Subtraction is on ℤ, as in Python. -/
def quoteSafe (q d : Char) (line : List Char) : Bool :=
  let count := countSub [q] line
  if '\\' ∈ line then
    if countSub ['\\', q] line = count then true
    else
      decide ((countSub [q, d] line : Int) - (countSub ['\\', q, d] line : Int)
        = (count : Int))
  else
    decide ((countSub [q, d] line : Int) = (count : Int))

/-- The fallback path of `NoMultilineQuotedReader._process`: strip the line,
parse it with a fresh single-line `csv.reader`, and re-serialise the parsed
fields with `csv.writer.writerow` (whose dialect terminator is `"\r\n"`). -/
def repairRewrite (d q : Char) (strict : Bool) (line : List Char) :
    Except CsvErr (List Char) :=
  match parseLine d q strict (pyStrip line) with
  | .error e => .error e
  | .ok fields => .ok (writeRow d q fields ++ ['\r', '\n'])

/-- `NoMultilineQuotedReader._process` as a pure function of the reader's
configuration (`quote_char` as `Option Char` — `none` models a falsy
`quote_char` — delimiter, `strict_delimitation`) and the raw line. -/
def repair (quote : Option Char) (d : Char) (strict : Bool) (line : List Char) :
    Except CsvErr (List Char) :=
  let l := nulsub line
  match quote with
  | none => .ok l
  | some q =>
    if countSub [q] l = 0 then .ok l
    else if quoteSafe q d l then .ok l
    else repairRewrite d q strict l

/-- Lifecycle state of `Reader`: the position of the underlying file iterator
(`none` when the file is closed) and the `_rows_read` counter (`None` before
the first open). -/
structure ReaderState where
  filePos : Option Nat
  rowsRead : Option Nat
deriving DecidableEq

/-- `Reader._open` on a file of `flen` lines with `nHeaders` header lines:
rows-read is zeroed and the header lines are skipped; the Boolean records
whether `next(self.file)` ran past the end of the file (StopIteration). -/
def openReader (flen nHeaders : Nat) : ReaderState × Bool :=
  (⟨some (min nHeaders flen), some 0⟩, decide (flen < nHeaders))

/-- `Reader.reset`: open if closed, otherwise seek to 0, zero `_rows_read`,
and skip the header lines again. -/
def resetReader (flen nHeaders : Nat) (s : ReaderState) : ReaderState × Bool :=
  match s.filePos with
  | none => openReader flen nHeaders
  | some _ => (⟨some (min nHeaders flen), some 0⟩, decide (flen < nHeaders))

/-! Spec-side definitions.

`quoteSafeMarker`/`repairMarker` follow the wording of spec step 4, which
branches on whether the escape marker (backslash + quote char) is present,
rather than on whether a backslash is present anywhere as the code does.
The positional predicates express claim hypotheses about where quote
characters sit in a line. -/

/-- Modelled from the spec: step-4 decision, branching on the presence of the
two-character escape marker instead of a lone backslash. -/
def quoteSafeMarker (q d : Char) (line : List Char) : Bool :=
  let count := countSub [q] line
  if countSub ['\\', q] line ≠ 0 then
    if countSub ['\\', q] line = count then true
    else
      decide ((countSub [q, d] line : Int) - (countSub ['\\', q, d] line : Int)
        = (count : Int))
  else
    decide ((countSub [q, d] line : Int) = (count : Int))

/-- Modelled from the spec: the repair filter with the step-4 decision taken
by `quoteSafeMarker`. -/
def repairMarker (quote : Option Char) (d : Char) (strict : Bool)
    (line : List Char) : Except CsvErr (List Char) :=
  let l := nulsub line
  match quote with
  | none => .ok l
  | some q =>
    if countSub [q] l = 0 then .ok l
    else if quoteSafeMarker q d l then .ok l
    else repairRewrite d q strict l

/-- Helper for `eachQuoteOk`: every occurrence of `q` is preceded by a
backslash or immediately followed by `d`, where `prev` is the character just
before the head of the list. -/
def eachQuoteOkFrom (q d prev : Char) : List Char → Bool
  | [] => true
  | c :: rest =>
    ((c != q) || (prev == '\\') ||
      (match rest with | c2 :: _ => c2 == d | [] => false))
      && eachQuoteOkFrom q d c rest

/-- Claim C1's hypothesis, read positionally: every occurrence of the quote
char in the line is escaped (preceded by a backslash) or immediately followed
by the delimiter. -/
def eachQuoteOk (q d : Char) : List Char → Bool
  | [] => true
  | c :: rest =>
    ((c != q) || (match rest with | c2 :: _ => c2 == d | [] => false))
      && eachQuoteOkFrom q d c rest

/-- Every occurrence of `q` is immediately followed by `d`. -/
def allQuotesFollowed (q d : Char) : List Char → Bool
  | [] => true
  | [c] => c != q
  | c1 :: c2 :: rest => ((c1 != q) || (c2 == d)) && allQuotesFollowed q d (c2 :: rest)

/-- No occurrence of `q` is immediately preceded by a backslash. -/
def noEscapedQuote (q : Char) : List Char → Bool
  | c1 :: c2 :: rest => ((c1 != '\\') || (c2 != q)) && noEscapedQuote q (c2 :: rest)
  | _ => true

/-- Helper for `allQuotesEscaped` with the preceding character explicit. -/
def allQuotesEscapedFrom (q prev : Char) : List Char → Bool
  | [] => true
  | c :: rest => ((c != q) || (prev == '\\')) && allQuotesEscapedFrom q c rest

/-- Every occurrence of `q` is immediately preceded by a backslash. -/
def allQuotesEscaped (q : Char) : List Char → Bool
  | [] => true
  | c :: rest => (c != q) && allQuotesEscapedFrom q c rest

/-- Occurrence count of `pat` that counts a match at every position; agrees
with `countSub` whenever `pat` cannot overlap itself. -/
def countPos (pat : List Char) : List Char → Nat
  | [] => 0
  | c :: rest => (if pat.isPrefixOf (c :: rest) then 1 else 0) + countPos pat rest

/-! Counting lemmas. -/

theorem countSubFuel_nil (pat : List Char) (f : Nat) : countSubFuel pat f [] = 0 := by
  cases f <;> rfl

theorem countSubFuel_stable (pat : List Char) :
    ∀ (f1 : Nat) (l : List Char) (f2 : Nat), l.length ≤ f1 → l.length ≤ f2 →
      countSubFuel pat f1 l = countSubFuel pat f2 l := by
  intro f1
  induction f1 with
  | zero =>
    intro l f2 h1 _
    have hl : l = [] := List.length_eq_zero.mp (Nat.le_zero.mp h1)
    subst hl
    rw [countSubFuel_nil, countSubFuel_nil]
  | succ n ih =>
    intro l f2 h1 h2
    cases l with
    | nil => rw [countSubFuel_nil, countSubFuel_nil]
    | cons c rest =>
      cases f2 with
      | zero => simp at h2
      | succ m =>
        simp only [countSubFuel]
        have hrest : rest.length ≤ n := by simp at h1; omega
        have hrest2 : rest.length ≤ m := by simp at h2; omega
        have hdrop : (rest.drop (pat.length - 1)).length ≤ rest.length := by
          rw [List.length_drop]; omega
        by_cases hp : pat.isPrefixOf (c :: rest)
        · rw [if_pos hp, if_pos hp,
            ih (rest.drop (pat.length - 1)) m (le_trans hdrop hrest) (le_trans hdrop hrest2)]
        · rw [if_neg hp, if_neg hp, ih rest m hrest hrest2]

theorem countSub_nil (pat : List Char) : countSub pat [] = 0 := rfl

theorem countSub_cons (pat : List Char) (c : Char) (rest : List Char) :
    countSub pat (c :: rest) =
      if pat.isPrefixOf (c :: rest) then
        1 + countSub pat (rest.drop (pat.length - 1))
      else countSub pat rest := by
  show countSubFuel pat (rest.length + 1) (c :: rest) = _
  simp only [countSubFuel]
  have hdrop : (rest.drop (pat.length - 1)).length ≤ rest.length := by
    rw [List.length_drop]; omega
  by_cases hp : pat.isPrefixOf (c :: rest)
  · rw [if_pos hp, if_pos hp]
    congr 1
    exact countSubFuel_stable pat rest.length _ _ hdrop le_rfl
  · rw [if_neg hp, if_neg hp]
    rfl

theorem countSub_head_zero (a : Char) (p l : List Char) (h : a ∉ l) :
    countSub (a :: p) l = 0 := by
  induction l with
  | nil => rfl
  | cons c rest ih =>
    have hne : ¬ (a :: p).isPrefixOf (c :: rest) := by
      simp only [List.isPrefixOf]
      intro hc
      have : a = c := by
        cases hb : (a == c) with
        | false => rw [hb] at hc; simp at hc
        | true => exact eq_of_beq hb
      exact h (this ▸ List.mem_cons_self a rest)
    rw [countSub_cons, if_neg hne]
    exact ih fun hm => h (List.mem_cons_of_mem c hm)

theorem mem_of_countSub_head (a : Char) (p l : List Char)
    (h : countSub (a :: p) l ≠ 0) : a ∈ l := by
  by_contra hm
  exact h (countSub_head_zero a p l hm)

theorem countSub_three_zero (x y z : Char) (l : List Char)
    (h : countSub [x, y] l = 0) : countSub [x, y, z] l = 0 := by
  induction l with
  | nil => rfl
  | cons c rest ih =>
    rw [countSub_cons] at h
    by_cases h2 : ([x, y] : List Char).isPrefixOf (c :: rest)
    · rw [if_pos h2] at h; omega
    · rw [if_neg h2] at h
      have h3 : ¬ ([x, y, z] : List Char).isPrefixOf (c :: rest) := by
        intro hc
        apply h2
        cases rest with
        | nil => simp [List.isPrefixOf] at hc
        | cons c2 r2 =>
          simp only [List.isPrefixOf, Bool.and_eq_true] at hc ⊢
          exact ⟨hc.1, hc.2.1, trivial⟩
      rw [countSub_cons, if_neg h3]
      exact ih h

/-! Bridges between `countSub` and `countPos` for patterns that cannot
overlap themselves. -/

theorem countSub_one (a : Char) (l : List Char) : countSub [a] l = countPos [a] l := by
  induction l with
  | nil => rfl
  | cons c rest ih =>
    rw [countSub_cons]
    simp only [countPos, List.length_cons, List.length_nil, Nat.add_sub_cancel,
      List.drop_zero]
    by_cases hp : ([a] : List Char).isPrefixOf (c :: rest)
    · rw [if_pos hp, if_pos hp, ih]
    · rw [if_neg hp, if_neg hp, ih]
      omega

theorem countSub_two (a b : Char) (hab : a ≠ b) :
    ∀ l : List Char, countSub [a, b] l = countPos [a, b] l := by
  have key : ∀ (n : Nat) (l : List Char), l.length ≤ n →
      countSub [a, b] l = countPos [a, b] l := by
    intro n
    induction n with
    | zero =>
      intro l h
      have hl : l = [] := List.length_eq_zero.mp (Nat.le_zero.mp h)
      subst hl; rfl
    | succ n ih =>
      intro l h
      cases l with
      | nil => rfl
      | cons c rest =>
        rw [countSub_cons]
        simp only [countPos]
        by_cases hp : ([a, b] : List Char).isPrefixOf (c :: rest)
        · rw [if_pos hp, if_pos hp]
          cases rest with
          | nil => simp [List.isPrefixOf] at hp
          | cons c2 r2 =>
            simp only [List.isPrefixOf, Bool.and_eq_true, beq_iff_eq] at hp
            obtain ⟨hac, hbc2, -⟩ := hp
            simp only [List.length_cons, List.length_nil]
            have : ((c2 :: r2).drop (2 - 1)) = r2 := by simp
            rw [this]
            have hnp : ¬ ([a, b] : List Char).isPrefixOf (c2 :: r2) := by
              simp only [List.isPrefixOf, Bool.and_eq_true, beq_iff_eq]
              rintro ⟨hac2, -⟩
              exact hab (hac2 ▸ hbc2 ▸ rfl)
            have hcp : countPos [a, b] (c2 :: r2) = countPos [a, b] r2 := by
              simp only [countPos, if_neg hnp]
              omega
            rw [hcp]
            have hr2 : r2.length ≤ n := by simp at h; omega
            rw [ih r2 hr2]
        · rw [if_neg hp, if_neg hp]
          have hr : rest.length ≤ n := by simp at h; omega
          rw [ih rest hr]
          omega
  intro l
  exact key l.length l le_rfl

theorem countSub_three (a b c : Char) (hba : b ≠ a) (hca : c ≠ a) :
    ∀ l : List Char, countSub [a, b, c] l = countPos [a, b, c] l := by
  have key : ∀ (n : Nat) (l : List Char), l.length ≤ n →
      countSub [a, b, c] l = countPos [a, b, c] l := by
    intro n
    induction n with
    | zero =>
      intro l h
      have hl : l = [] := List.length_eq_zero.mp (Nat.le_zero.mp h)
      subst hl; rfl
    | succ n ih =>
      intro l h
      cases l with
      | nil => rfl
      | cons c1 rest =>
        rw [countSub_cons]
        simp only [countPos]
        by_cases hp : ([a, b, c] : List Char).isPrefixOf (c1 :: rest)
        · rw [if_pos hp, if_pos hp]
          cases rest with
          | nil => simp [List.isPrefixOf] at hp
          | cons c2 r2 =>
            cases r2 with
            | nil => simp [List.isPrefixOf] at hp
            | cons c3 r3 =>
              simp only [List.isPrefixOf, Bool.and_eq_true, beq_iff_eq] at hp
              obtain ⟨hac1, hbc2, hcc3, -⟩ := hp
              simp only [List.length_cons, List.length_nil]
              have hdrop : ((c2 :: c3 :: r3).drop (3 - 1)) = r3 := by simp
              rw [hdrop]
              have hnp2 : ¬ ([a, b, c] : List Char).isPrefixOf (c2 :: c3 :: r3) := by
                simp only [List.isPrefixOf, Bool.and_eq_true, beq_iff_eq]
                rintro ⟨hac2, -⟩
                exact hba (hbc2 ▸ hac2 ▸ rfl)
              have hnp3 : ¬ ([a, b, c] : List Char).isPrefixOf (c3 :: r3) := by
                simp only [List.isPrefixOf, Bool.and_eq_true, beq_iff_eq]
                rintro ⟨hac3, -⟩
                exact hca (hcc3 ▸ hac3 ▸ rfl)
              have e2 : countPos [a, b, c] (c2 :: c3 :: r3)
                  = countPos [a, b, c] (c3 :: r3) := by
                simp only [countPos, if_neg hnp2]
                omega
              have e3 : countPos [a, b, c] (c3 :: r3) = countPos [a, b, c] r3 := by
                simp only [countPos, if_neg hnp3]
                omega
              rw [e2, e3]
              have hr3 : r3.length ≤ n := by simp at h; omega
              rw [ih r3 hr3]
        · rw [if_neg hp, if_neg hp]
          have hr : rest.length ≤ n := by simp at h; omega
          rw [ih rest hr]
          omega
  intro l
  exact key l.length l le_rfl

/-! Positional characterisations of the counting heuristic. -/

theorem countPos_followed (q d : Char) :
    ∀ l : List Char, allQuotesFollowed q d l = true →
      countPos [q, d] l = countPos [q] l := by
  intro l
  induction l with
  | nil => intro _; rfl
  | cons c rest ih =>
    intro h
    cases rest with
    | nil =>
      simp only [allQuotesFollowed, bne_iff_ne, ne_eq, decide_eq_true_eq] at h
      have hqc : ¬ (q = c) := fun hx => h hx.symm
      simp [countPos, List.isPrefixOf, hqc]
    | cons c2 r2 =>
      simp only [allQuotesFollowed, Bool.and_eq_true, Bool.or_eq_true, bne_iff_ne,
        ne_eq, beq_iff_eq] at h
      obtain ⟨hhead, htail⟩ := h
      have ihr := ih htail
      simp only [countPos] at ihr ⊢
      have hiff : (([q, d] : List Char).isPrefixOf (c :: c2 :: r2) = true)
          ↔ (c = q ∧ c2 = d) := by
        simp only [List.isPrefixOf, Bool.and_eq_true, beq_iff_eq]
        constructor
        · rintro ⟨h1, h2, -⟩; exact ⟨h1.symm, h2.symm⟩
        · rintro ⟨h1, h2⟩; exact ⟨h1.symm, h2.symm, trivial⟩
      have hqiff : (([q] : List Char).isPrefixOf (c :: c2 :: r2) = true) ↔ c = q := by
        simp only [List.isPrefixOf, Bool.and_eq_true, beq_iff_eq]
        constructor
        · rintro ⟨h1, -⟩; exact h1.symm
        · rintro h1; exact ⟨h1.symm, trivial⟩
      by_cases hcq : c = q
      · have hc2 : c2 = d := by
          rcases hhead with h1 | h1
          · exact absurd hcq (by simpa using h1)
          · exact h1
        rw [if_pos (hiff.mpr ⟨hcq, hc2⟩), if_pos (hqiff.mpr hcq), ihr]
      · rw [if_neg (fun hx => hcq (hiff.mp hx).1), if_neg (fun hx => hcq (hqiff.mp hx)),
          ihr]

theorem countPos_noEscaped (q : Char) :
    ∀ l : List Char, noEscapedQuote q l = true → countPos ['\\', q] l = 0 := by
  intro l
  induction l with
  | nil => intro _; rfl
  | cons c rest ih =>
    intro h
    cases rest with
    | nil => simp [countPos, List.isPrefixOf]
    | cons c2 r2 =>
      simp only [noEscapedQuote, Bool.and_eq_true, Bool.or_eq_true, bne_iff_ne,
        ne_eq] at h
      obtain ⟨hhead, htail⟩ := h
      have ihr := ih htail
      simp only [countPos] at ihr ⊢
      have hnp : ¬ ((['\\', q] : List Char).isPrefixOf (c :: c2 :: r2) = true) := by
        simp only [List.isPrefixOf, Bool.and_eq_true, beq_iff_eq]
        rintro ⟨h1, h2, -⟩
        rcases hhead with hx | hx
        · exact hx h1.symm
        · exact hx h2.symm
      rw [if_neg hnp]
      omega

theorem countPos_escapedFrom (q : Char) :
    ∀ (l : List Char) (prev : Char), allQuotesEscapedFrom q prev l = true →
      countPos ['\\', q] (prev :: l) = countPos [q] l := by
  intro l
  induction l with
  | nil =>
    intro prev _
    simp [countPos, List.isPrefixOf]
  | cons c rest ih =>
    intro prev h
    simp only [allQuotesEscapedFrom, Bool.and_eq_true, Bool.or_eq_true, bne_iff_ne,
      ne_eq, beq_iff_eq] at h
    obtain ⟨hhead, htail⟩ := h
    have ihr := ih c htail
    simp only [countPos] at ihr ⊢
    have hiff : ((['\\', q] : List Char).isPrefixOf (prev :: c :: rest) = true)
        ↔ (prev = '\\' ∧ c = q) := by
      simp only [List.isPrefixOf, Bool.and_eq_true, beq_iff_eq]
      constructor
      · rintro ⟨h1, h2, -⟩; exact ⟨h1.symm, h2.symm⟩
      · rintro ⟨h1, h2⟩; exact ⟨h1.symm, h2.symm, trivial⟩
    by_cases hcq : c = q
    · have hprev : prev = '\\' := by
        rcases hhead with h1 | h1
        · exact absurd hcq h1
        · exact h1
      rw [if_pos (hiff.mpr ⟨hprev, hcq⟩)]
      have hq1 : (([q] : List Char).isPrefixOf (c :: rest) = true) := by
        simp [List.isPrefixOf, hcq]
      rw [if_pos hq1, ihr]
    · rw [if_neg (fun hx => hcq (hiff.mp hx).2)]
      have hq1 : ¬ (([q] : List Char).isPrefixOf (c :: rest) = true) := by
        simp only [List.isPrefixOf, Bool.and_eq_true, beq_iff_eq]
        rintro ⟨h1, -⟩
        exact hcq h1.symm
      rw [if_neg hq1, ihr]

theorem countPos_escaped (q : Char) (l : List Char)
    (h : allQuotesEscaped q l = true) :
    countPos ['\\', q] l = countPos [q] l := by
  cases l with
  | nil => rfl
  | cons c rest =>
    simp only [allQuotesEscaped, Bool.and_eq_true, bne_iff_ne, ne_eq] at h
    obtain ⟨hcq, htail⟩ := h
    have he := countPos_escapedFrom q rest c htail
    rw [he]
    simp only [countPos]
    have hq1 : ¬ (([q] : List Char).isPrefixOf (c :: rest) = true) := by
      simp only [List.isPrefixOf, Bool.and_eq_true, beq_iff_eq]
      rintro ⟨h1, -⟩
      exact hcq h1.symm
    rw [if_neg hq1]
    omega

/-! The pass-through decision. -/

theorem quoteSafe_of_counts (q d : Char) (m : List Char)
    (hcount : countSub [q] m ≠ 0)
    (h : countSub ['\\', q] m = countSub [q] m
      ∨ ((countSub [q, d] m : Int) -
          (if countSub ['\\', q] m ≠ 0 then (countSub ['\\', q, d] m : Int) else 0)
          = (countSub [q] m : Int))) :
    quoteSafe q d m = true := by
  simp only [quoteSafe]
  by_cases hb : '\\' ∈ m
  · rw [if_pos hb]
    by_cases he : countSub ['\\', q] m = countSub [q] m
    · rw [if_pos he]
    · rw [if_neg he]
      rcases h with h | h
      · exact absurd h he
      · apply decide_eq_true
        by_cases hez : countSub ['\\', q] m = 0
        · rw [if_neg (by rw [hez]; exact fun hx => hx rfl)] at h
          have h3 : countSub ['\\', q, d] m = 0 := countSub_three_zero _ _ _ _ hez
          rw [h3]
          simpa using h
        · rwa [if_pos hez] at h
  · rw [if_neg hb]
    have h0 : countSub ['\\', q] m = 0 := countSub_head_zero _ _ _ hb
    rcases h with h | h
    · rw [h0] at h
      exact absurd h.symm hcount
    · apply decide_eq_true
      rw [if_neg (by rw [h0]; exact fun hx => hx rfl)] at h
      simpa using h

theorem repair_some_unfold (q d : Char) (strict : Bool) (l : List Char) :
    repair (some q) d strict l =
      (if countSub [q] (nulsub l) = 0 then .ok (nulsub l)
       else if quoteSafe q d (nulsub l) then .ok (nulsub l)
       else repairRewrite d q strict (nulsub l)) := rfl

/-- Claim C3: a line with at least one quote character passes through
unchanged (beyond NUL substitution) when the escaped-quote count equals the
total quote count, or when the quote-plus-delimiter pair count — reduced by
the escape-quote-delimiter triple count when escape markers are present —
equals the total quote count; in particular `a,b",c` is returned unchanged
(see the witness). -/
theorem repair_safe_by_counts (q d : Char) (strict : Bool) (l : List Char)
    (hcount : countSub [q] (nulsub l) ≠ 0)
    (h : countSub ['\\', q] (nulsub l) = countSub [q] (nulsub l)
      ∨ ((countSub [q, d] (nulsub l) : Int) -
          (if countSub ['\\', q] (nulsub l) ≠ 0
            then (countSub ['\\', q, d] (nulsub l) : Int) else 0)
          = (countSub [q] (nulsub l) : Int))) :
    repair (some q) d strict l = .ok (nulsub l) := by
  rw [repair_some_unfold, if_neg hcount,
    if_pos (quoteSafe_of_counts q d (nulsub l) hcount h)]

/-- Witness for C3 at the spec's concrete scenario `a,b",c` with delimiter
`,` and quote `"`. -/
theorem repair_safe_by_counts_witness :
    countSub ['"'] (nulsub ("a,b\",c".toList)) ≠ 0 ∧
    repair (some '"') ',' false ("a,b\",c".toList) = .ok ("a,b\",c".toList) := by
  refine ⟨by decide, ?_⟩
  exact repair_safe_by_counts '"' ',' false ("a,b\",c".toList) (by decide)
    (Or.inr (by decide))

/-- Counterexample to claim C1 as stated: in the mixed line `a\",b",c`
(delimiter `,`, quote `"`) every quote character is escaped or immediately
followed by the delimiter, yet the filter takes the repair path and rewrites
the line (the heuristic compares the escape-adjusted pair count with the
total quote count, not with the count of unescaped quotes). -/
theorem repair_mixed_counterexample :
    eachQuoteOk '"' ',' ("a\\\",b\",c".toList) = true ∧
    repair (some '"') ',' false ("a\\\",b\",c".toList)
      = .ok ("\"a\\\"\"\",\"b\"\"\",c\r\n".toList) ∧
    ("\"a\\\"\"\",\"b\"\"\",c\r\n".toList) ≠ nulsub ("a\\\",b\",c".toList) := by
  refine ⟨by decide, rfl, by decide⟩

/-- Claim C1, amended: a line passes through unchanged (beyond NUL
substitution) when either every quote occurrence is immediately followed by
the delimiter and none is escaped, or every quote occurrence is escaped;
mixed lines — some quotes escaped, the remaining ones before the delimiter —
may instead take the repair path (see the counterexample). -/
theorem repair_positional_safe (q d : Char) (strict : Bool) (l : List Char)
    (hqd : q ≠ d) (hqb : q ≠ '\\')
    (h : (allQuotesFollowed q d (nulsub l) = true ∧ noEscapedQuote q (nulsub l) = true)
        ∨ allQuotesEscaped q (nulsub l) = true) :
    repair (some q) d strict l = .ok (nulsub l) := by
  by_cases hc : countSub [q] (nulsub l) = 0
  · rw [repair_some_unfold, if_pos hc]
  · have hs : quoteSafe q d (nulsub l) = true := by
      apply quoteSafe_of_counts q d (nulsub l) hc
      rcases h with ⟨hf, hne⟩ | he
      · right
        have hesc0 : countSub ['\\', q] (nulsub l) = 0 := by
          rw [countSub_two '\\' q (Ne.symm hqb)]
          exact countPos_noEscaped q (nulsub l) hne
        rw [if_neg (by rw [hesc0]; exact fun hx => hx rfl)]
        rw [countSub_two q d hqd, countPos_followed q d (nulsub l) hf,
          ← countSub_one]
        simp
      · left
        rw [countSub_two '\\' q (Ne.symm hqb), countPos_escaped q (nulsub l) he,
          ← countSub_one]
    rw [repair_some_unfold, if_neg hc, if_pos hs]

/-- Witness for the amended C1 at the spec's scenario 3, `a,\"b,c`: the only
quote is escaped, and the line passes through unchanged. -/
theorem repair_positional_safe_witness :
    allQuotesEscaped '"' (nulsub ("a,\\\"b,c".toList)) = true ∧
    repair (some '"') ',' false ("a,\\\"b,c".toList) = .ok ("a,\\\"b,c".toList) := by
  refine ⟨by decide, ?_⟩
  exact repair_positional_safe '"' ',' false ("a,\\\"b,c".toList) (by decide)
    (by decide) (Or.inr (by decide))

/-- Claim C5: with a falsy quote character the filter is the identity
transform apart from NUL-to-space substitution, for every line. -/
theorem repair_quote_none (d : Char) (strict : Bool) (l : List Char) :
    repair none d strict l = .ok (nulsub l) := rfl

/-- Claim C10: the code's branch on "a backslash occurs anywhere in the line"
decides exactly like the spec-worded variant that branches on "the escape
marker backslash+quote occurs in the line"; the whole filter is unchanged
under this refinement, for every configuration and line. -/
theorem repairMarker_eq_repair (quote : Option Char) (d : Char) (strict : Bool)
    (l : List Char) : repairMarker quote d strict l = repair quote d strict l := by
  cases quote with
  | none => rfl
  | some q =>
    have unfoldM : repairMarker (some q) d strict l =
        (if countSub [q] (nulsub l) = 0 then .ok (nulsub l)
         else if quoteSafeMarker q d (nulsub l) then .ok (nulsub l)
         else repairRewrite d q strict (nulsub l)) := rfl
    rw [unfoldM, repair_some_unfold]
    by_cases hc : countSub [q] (nulsub l) = 0
    · rw [if_pos hc, if_pos hc]
    · rw [if_neg hc, if_neg hc]
      have hqs : quoteSafeMarker q d (nulsub l) = quoteSafe q d (nulsub l) := by
        simp only [quoteSafeMarker, quoteSafe]
        by_cases hm : countSub ['\\', q] (nulsub l) = 0
        · rw [if_neg (by rw [hm]; exact fun hx => hx rfl)]
          by_cases hb : '\\' ∈ nulsub l
          · rw [if_pos hb, if_neg (by rw [hm]; exact fun hx => hc hx.symm)]
            have h3 : countSub ['\\', q, d] (nulsub l) = 0 :=
              countSub_three_zero _ _ _ _ hm
            rw [h3]
            rw [decide_eq_decide]
            constructor
            · intro hx; rw [← hx]; simp
            · intro hx; rw [← hx]; simp
          · rw [if_neg hb]
        · have hb : '\\' ∈ nulsub l := mem_of_countSub_head '\\' [q] (nulsub l) hm
          rw [if_pos hm, if_pos hb]
      rw [hqs]

/-! NUL substitution. -/

theorem nulsub_cons (c : Char) (rest : List Char) :
    nulsub (c :: rest) = (if c = '\x00' then ' ' else c) :: nulsub rest := rfl

theorem nulsub_nulsub (l : List Char) : nulsub (nulsub l) = nulsub l := by
  induction l with
  | nil => rfl
  | cons c rest ih =>
    rw [nulsub_cons, nulsub_cons, ih]
    by_cases h : c = '\x00' <;> simp [h]

theorem nulsub_eq_self (l : List Char) (h : ∀ c ∈ l, c ≠ '\x00') :
    nulsub l = l := by
  induction l with
  | nil => rfl
  | cons c rest ih =>
    rw [nulsub_cons, if_neg (h c (List.mem_cons_self c rest)),
      ih fun x hx => h x (List.mem_cons_of_mem c hx)]

theorem repair_nulsub (quote : Option Char) (d : Char) (strict : Bool)
    (l : List Char) :
    repair quote d strict (nulsub l) = repair quote d strict l := by
  cases quote with
  | none =>
    show Except.ok (nulsub (nulsub l)) = Except.ok (nulsub l)
    rw [nulsub_nulsub]
  | some q => rw [repair_some_unfold, repair_some_unfold, nulsub_nulsub]

/-- Claim C6: NUL characters are replaced by spaces before any other
processing, on every path: the repair filter factors through the same
NUL substitution that the base `Reader._process` performs, and on the
concrete line `a,\x00b,c` both produce `a, b,c`. -/
theorem nul_replaced_before_processing :
    (∀ (quote : Option Char) (d : Char) (strict : Bool) (l : List Char),
        repair quote d strict l = repair quote d strict (readerProcess l)) ∧
    (∀ l : List Char, readerProcess l = nulsub l) ∧
    readerProcess ("a,\x00b,c".toList) = "a, b,c".toList ∧
    repair (some '"') ',' false ("a,\x00b,c".toList) = .ok ("a, b,c".toList) := by
  refine ⟨?_, fun _ => rfl, by decide, rfl⟩
  intro quote d strict l
  exact (repair_nulsub quote d strict l).symm

/-- Claim C8: a hard parse error of the fallback single-line parse
propagates out of the repair filter unchanged: nothing is caught, no default
is substituted, the line is not skipped and not retried. -/
theorem repair_propagates_error (q d : Char) (strict : Bool) (l : List Char)
    (e : CsvErr)
    (hcount : countSub [q] (nulsub l) ≠ 0)
    (hsafe : quoteSafe q d (nulsub l) = false)
    (hparse : parseLine d q strict (pyStrip (nulsub l)) = .error e) :
    repair (some q) d strict l = .error e := by
  rw [repair_some_unfold, if_neg hcount, if_neg (by rw [hsafe]; simp)]
  simp only [repairRewrite, hparse]

/-- Witness for C8: `"a"b` in strict mode reaches the repair path, the
fallback parse raises, and `repair` surfaces exactly that error. -/
theorem repair_propagates_error_witness :
    repair (some '"') ',' true ("\"a\"b".toList) = .error CsvErr.strictQuote := by
  exact repair_propagates_error '"' ',' true ("\"a\"b".toList) CsvErr.strictQuote
    (by decide) (by decide) rfl

/-- Claim C9: `reset` is idempotent — a second `reset` leaves the reader in
the state the first one produced: positioned just past the configured header
lines (when the file has that many lines) with `rows_read` zero; the filter
itself keeps no cross-line state to clear. -/
theorem reset_idem (flen nHeaders : Nat) (s : ReaderState)
    (h : nHeaders ≤ flen) :
    resetReader flen nHeaders (resetReader flen nHeaders s).1
        = resetReader flen nHeaders s ∧
    (resetReader flen nHeaders s).1.filePos = some nHeaders ∧
    (resetReader flen nHeaders s).1.rowsRead = some 0 := by
  have hmin : min nHeaders flen = nHeaders := Nat.min_eq_left h
  cases hs : s.filePos with
  | none => simp [resetReader, openReader, hs, hmin]
  | some p => simp [resetReader, openReader, hs, hmin]

/-- Witness for C9 on a closed reader over a three-line file with one header
line. -/
theorem reset_idem_witness :
    resetReader 3 1 (resetReader 3 1 ⟨none, none⟩).1 = resetReader 3 1 ⟨none, none⟩ ∧
    (resetReader 3 1 (⟨none, none⟩ : ReaderState)).1.filePos = some 1 ∧
    (resetReader 3 1 (⟨none, none⟩ : ReaderState)).1.rowsRead = some 0 :=
  reset_idem 3 1 ⟨none, none⟩ (by decide)

/-! Parser runs over serialised rows. -/

theorem processChars_nil (d q : Char) (strict : Bool) (s : PSt) :
    processChars d q strict s [] = .ok s := rfl

theorem processChars_cons (d q : Char) (strict : Bool) (s : PSt) (c : Char)
    (rest : List Char) :
    processChars d q strict s (c :: rest) =
      match step d q strict s c with
      | .error e => .error e
      | .ok s' => processChars d q strict s' rest := rfl

theorem processChars_append (d q : Char) (strict : Bool) :
    ∀ (xs : List Char) (s : PSt) (ys : List Char),
      processChars d q strict s (xs ++ ys) =
        match processChars d q strict s xs with
        | .error e => .error e
        | .ok s' => processChars d q strict s' ys := by
  intro xs
  induction xs with
  | nil => intro s ys; rfl
  | cons c rest ih =>
    intro s ys
    simp only [List.cons_append, processChars_cons]
    cases step d q strict s c with
    | error e => rfl
    | ok s' => exact ih s' ys

theorem no_special_of_not_needsQuote (d q : Char) (f : List Char)
    (h : fieldNeedsQuote d q f = false) :
    ∀ c ∈ f, c ≠ d ∧ c ≠ q ∧ c ≠ '\r' ∧ c ≠ '\n' := by
  intro c hc
  have hcontra : (c == d || c == q || c == '\r' || c == '\n') = true → False := by
    intro hx
    have ht : fieldNeedsQuote d q f = true := by
      simp only [fieldNeedsQuote, List.any_eq_true]
      exact ⟨c, hc, hx⟩
    rw [h] at ht
    exact Bool.false_ne_true ht
  refine ⟨?_, ?_, ?_, ?_⟩ <;> intro he <;> apply hcontra <;> simp [he]

theorem processChars_unquoted (d q : Char) (strict : Bool) :
    ∀ (f : List Char), (∀ c ∈ f, c ≠ d ∧ c ≠ q ∧ c ≠ '\r' ∧ c ≠ '\n') →
      ∀ (st : PState), st = .startField ∨ st = .inField →
      ∀ (cur : List Char) (fds : List (List Char)),
      ∃ (st' : PState) (cur' : List Char),
        processChars d q strict ⟨st, cur, fds⟩ f = .ok ⟨st', cur', fds⟩ ∧
        (st' = .startField ∨ st' = .inField) := by
  intro f
  induction f with
  | nil =>
    intro _ st hst cur fds
    exact ⟨st, cur, rfl, hst⟩
  | cons c rest ih =>
    intro hf st hst cur fds
    obtain ⟨hcd, hcq, hcr, hcn⟩ := hf c (List.mem_cons_self c rest)
    have hrest : ∀ x ∈ rest, x ≠ d ∧ x ≠ q ∧ x ≠ '\r' ∧ x ≠ '\n' :=
      fun x hx => hf x (List.mem_cons_of_mem c hx)
    have hnl : ¬ (c = '\n' ∨ c = '\r') := fun hx => hx.elim hcn hcr
    rcases hst with hst | hst <;> subst hst
    · rw [processChars_cons]
      by_cases hsp : c = ' '
      · have hstep : step d q strict ⟨.startField, cur, fds⟩ c
            = .ok ⟨.startField, cur, fds⟩ := by
          simp only [step, stepStartField]
          rw [if_neg hnl, if_neg hcq, if_pos hsp]
        rw [hstep]
        exact ih hrest .startField (Or.inl rfl) cur fds
      · have hstep : step d q strict ⟨.startField, cur, fds⟩ c
            = .ok ⟨.inField, cur ++ [c], fds⟩ := by
          simp only [step, stepStartField]
          rw [if_neg hnl, if_neg hcq, if_neg hsp, if_neg hcd]
        rw [hstep]
        exact ih hrest .inField (Or.inr rfl) (cur ++ [c]) fds
    · rw [processChars_cons]
      have hstep : step d q strict ⟨.inField, cur, fds⟩ c
          = .ok ⟨.inField, cur ++ [c], fds⟩ := by
        simp only [step]
        rw [if_neg hnl, if_neg hcd]
      rw [hstep]
      exact ih hrest .inField (Or.inr rfl) (cur ++ [c]) fds

theorem processChars_doubleQ (d q : Char) (strict : Bool) :
    ∀ (f cur : List Char) (fds : List (List Char)),
      ∃ cur' : List Char,
        processChars d q strict ⟨.inQuoted, cur, fds⟩ (doubleQ q f)
          = .ok ⟨.inQuoted, cur', fds⟩ := by
  intro f
  induction f with
  | nil => intro cur fds; exact ⟨cur, rfl⟩
  | cons c rest ih =>
    intro cur fds
    by_cases hc : c = q
    · have hd2 : doubleQ q (c :: rest) = q :: q :: doubleQ q rest := by
        simp [doubleQ, hc]
      have h1 : step d q strict ⟨.inQuoted, cur, fds⟩ q
          = .ok ⟨.quoteInQuoted, cur, fds⟩ := by
        simp [step]
      have h2 : step d q strict ⟨.quoteInQuoted, cur, fds⟩ q
          = .ok ⟨.inQuoted, cur ++ [q], fds⟩ := by
        simp [step]
      obtain ⟨cur', hrest⟩ := ih (cur ++ [q]) fds
      refine ⟨cur', ?_⟩
      have e1 : processChars d q strict ⟨.inQuoted, cur, fds⟩ (q :: q :: doubleQ q rest)
          = processChars d q strict ⟨.quoteInQuoted, cur, fds⟩ (q :: doubleQ q rest) := by
        rw [processChars_cons, h1]
      have e2 : processChars d q strict ⟨.quoteInQuoted, cur, fds⟩ (q :: doubleQ q rest)
          = processChars d q strict ⟨.inQuoted, cur ++ [q], fds⟩ (doubleQ q rest) := by
        rw [processChars_cons, h2]
      rw [hd2, e1, e2, hrest]
    · have hd1 : doubleQ q (c :: rest) = c :: doubleQ q rest := by
        simp [doubleQ, hc]
      have h1 : step d q strict ⟨.inQuoted, cur, fds⟩ c
          = .ok ⟨.inQuoted, cur ++ [c], fds⟩ := by
        simp [step, hc]
      obtain ⟨cur', hrest⟩ := ih (cur ++ [c]) fds
      refine ⟨cur', ?_⟩
      have e1 : processChars d q strict ⟨.inQuoted, cur, fds⟩ (c :: doubleQ q rest)
          = processChars d q strict ⟨.inQuoted, cur ++ [c], fds⟩ (doubleQ q rest) := by
        rw [processChars_cons, h1]
      rw [hd1, e1, hrest]

theorem processChars_serField (d q : Char) (strict : Bool)
    (hqr : q ≠ '\r') (hqn : q ≠ '\n') (f cur : List Char)
    (fds : List (List Char)) :
    ∃ (st' : PState) (cur' : List Char),
      processChars d q strict ⟨.startField, cur, fds⟩ (serField d q f)
        = .ok ⟨st', cur', fds⟩ ∧
      (st' = .startField ∨ st' = .inField ∨ st' = .quoteInQuoted) := by
  by_cases hnq : fieldNeedsQuote d q f = true
  · have hser : serField d q f = q :: (doubleQ q f ++ [q]) := by
      simp [serField, hnq]
    have h1 : step d q strict ⟨.startField, cur, fds⟩ q = .ok ⟨.inQuoted, cur, fds⟩ := by
      simp [step, stepStartField, hqn, hqr]
    obtain ⟨cur2, h2⟩ := processChars_doubleQ d q strict f cur fds
    have h3 : step d q strict ⟨.inQuoted, cur2, fds⟩ q
        = .ok ⟨.quoteInQuoted, cur2, fds⟩ := by
      simp [step]
    refine ⟨.quoteInQuoted, cur2, ?_, Or.inr (Or.inr rfl)⟩
    have e1 : processChars d q strict ⟨.startField, cur, fds⟩ (q :: (doubleQ q f ++ [q]))
        = processChars d q strict ⟨.inQuoted, cur, fds⟩ (doubleQ q f ++ [q]) := by
      rw [processChars_cons, h1]
    have e2 : processChars d q strict ⟨.inQuoted, cur, fds⟩ (doubleQ q f ++ [q])
        = processChars d q strict ⟨.inQuoted, cur2, fds⟩ [q] := by
      rw [processChars_append, h2]
    have e3 : processChars d q strict ⟨.inQuoted, cur2, fds⟩ [q]
        = .ok ⟨.quoteInQuoted, cur2, fds⟩ := by
      rw [processChars_cons, h3]
      rfl
    rw [hser, e1, e2, e3]
  · have hf := no_special_of_not_needsQuote d q f (by simpa using hnq)
    have hser : serField d q f = f := by simp [serField, hnq]
    rw [hser]
    obtain ⟨st', cur', hrun, hst⟩ :=
      processChars_unquoted d q strict f hf .startField (Or.inl rfl) cur fds
    refine ⟨st', cur', hrun, ?_⟩
    rcases hst with h | h
    · exact Or.inl h
    · exact Or.inr (Or.inl h)

theorem step_sep (d q : Char) (strict : Bool) (cur : List Char)
    (fds : List (List Char)) (st : PState)
    (hdq : d ≠ q) (hds : d ≠ ' ') (hdr : d ≠ '\r') (hdn : d ≠ '\n')
    (hst : st = .startField ∨ st = .inField ∨ st = .quoteInQuoted) :
    step d q strict ⟨st, cur, fds⟩ d = .ok ⟨.startField, [], cur :: fds⟩ := by
  rcases hst with h | h | h <;> subst h
  · simp [step, stepStartField, hdq, hds, hdr, hdn]
  · simp [step, hdr, hdn]
  · simp [step, hdq]

theorem processChars_crlf (d q : Char) (strict : Bool) (cur : List Char)
    (fds : List (List Char)) (st : PState)
    (hdr : d ≠ '\r') (hqr : q ≠ '\r')
    (hst : st = .startField ∨ st = .inField ∨ st = .quoteInQuoted) :
    processChars d q strict ⟨st, cur, fds⟩ ['\r', '\n']
      = .ok ⟨.eatCrnl, [], cur :: fds⟩ := by
  have h1 : step d q strict ⟨st, cur, fds⟩ '\r' = .ok ⟨.eatCrnl, [], cur :: fds⟩ := by
    rcases hst with h | h | h <;> subst h
    · simp [step, stepStartField]
    · simp [step]
    · have hq' : ¬ ('\r' = q) := fun hx => hqr hx.symm
      have hd' : ¬ ('\r' = d) := fun hx => hdr hx.symm
      simp [step, hq', hd']
  have h2 : step d q strict ⟨.eatCrnl, [], cur :: fds⟩ '\n'
      = .ok ⟨.eatCrnl, [], cur :: fds⟩ := by
    simp [step]
  have e1 : processChars d q strict ⟨st, cur, fds⟩ ['\r', '\n']
      = processChars d q strict ⟨.eatCrnl, [], cur :: fds⟩ ['\n'] := by
    rw [processChars_cons, h1]
  have e2 : processChars d q strict ⟨.eatCrnl, [], cur :: fds⟩ ['\n']
      = .ok ⟨.eatCrnl, [], cur :: fds⟩ := by
    rw [processChars_cons, h2]
    rfl
  rw [e1, e2]

theorem intercalate_nil_eq (s : List Char) :
    List.intercalate s ([] : List (List Char)) = [] := by
  simp [List.intercalate]

theorem intercalate_single (s a : List Char) : List.intercalate s [a] = a := by
  simp [List.intercalate]

theorem intercalate_cons2 (s a b : List Char) (t : List (List Char)) :
    List.intercalate s (a :: b :: t) = a ++ (s ++ List.intercalate s (b :: t)) := by
  simp only [List.intercalate, List.intersperse]
  simp

theorem intercalate_cons2_ne_nil (s : List Char) (hs : s ≠ []) (a b : List Char)
    (t : List (List Char)) : List.intercalate s (a :: b :: t) ≠ [] := by
  rw [intercalate_cons2]
  intro h
  have h2 := List.append_eq_nil.mp h
  have h3 := List.append_eq_nil.mp h2.2
  exact hs h3.1

theorem processChars_row (d q : Char) (strict : Bool)
    (hdq : d ≠ q) (hds : d ≠ ' ') (hdr : d ≠ '\r') (hdn : d ≠ '\n')
    (hqr : q ≠ '\r') (hqn : q ≠ '\n') :
    ∀ (F : List (List Char)) (cur : List Char) (fds : List (List Char)),
      F ≠ [] →
      ∃ (st' : PState) (cur' : List Char) (fds' : List (List Char)),
        processChars d q strict ⟨.startField, cur, fds⟩
            (List.intercalate [d] (F.map (serField d q))) = .ok ⟨st', cur', fds'⟩ ∧
        (st' = .startField ∨ st' = .inField ∨ st' = .quoteInQuoted) ∧
        fds'.length = fds.length + (F.length - 1) := by
  intro F
  induction F with
  | nil => intro cur fds h; exact absurd rfl h
  | cons f rest ih =>
    intro cur fds _
    cases rest with
    | nil =>
      rw [List.map_cons, List.map_nil, intercalate_single]
      obtain ⟨st', cur', hrun, hst⟩ :=
        processChars_serField d q strict hqr hqn f cur fds
      exact ⟨st', cur', fds, hrun, hst, by simp⟩
    | cons f2 rest2 =>
      obtain ⟨st1, cur1, hrun1, hst1⟩ :=
        processChars_serField d q strict hqr hqn f cur fds
      obtain ⟨st2, cur2, fds2, hrun2, hst2, hlen⟩ := ih [] (cur1 :: fds) (by simp)
      refine ⟨st2, cur2, fds2, ?_, hst2, ?_⟩
      · have e0 : List.intercalate [d] ((f :: f2 :: rest2).map (serField d q))
            = serField d q f ++
              ([d] ++ List.intercalate [d] ((f2 :: rest2).map (serField d q))) := by
          rw [List.map_cons]
          exact intercalate_cons2 [d] (serField d q f) (serField d q f2)
            (rest2.map (serField d q))
        have e1 : processChars d q strict ⟨.startField, cur, fds⟩
              (serField d q f ++
                ([d] ++ List.intercalate [d] ((f2 :: rest2).map (serField d q))))
            = processChars d q strict ⟨st1, cur1, fds⟩
              ([d] ++ List.intercalate [d] ((f2 :: rest2).map (serField d q))) := by
          rw [processChars_append, hrun1]
        have e2 : processChars d q strict ⟨st1, cur1, fds⟩
              ([d] ++ List.intercalate [d] ((f2 :: rest2).map (serField d q)))
            = processChars d q strict ⟨.startField, [], cur1 :: fds⟩
              (List.intercalate [d] ((f2 :: rest2).map (serField d q))) := by
          have hsep := step_sep d q strict cur1 fds st1 hdq hds hdr hdn hst1
          rw [List.singleton_append, processChars_cons, hsep]
        rw [e0, e1, e2, hrun2]
      · simp only [List.length_cons] at hlen ⊢
        omega

theorem serField_head_cases (d q : Char) (hqr : q ≠ '\r') (hqn : q ≠ '\n')
    (f : List Char) :
    serField d q f = [] ∨
    ∃ c cs, serField d q f = c :: cs ∧ c ≠ '\r' ∧ c ≠ '\n' := by
  by_cases hnq : fieldNeedsQuote d q f = true
  · right
    exact ⟨q, doubleQ q f ++ [q], by simp [serField, hnq], hqr, hqn⟩
  · have hser : serField d q f = f := by simp [serField, hnq]
    cases f with
    | nil => left; rw [hser]
    | cons c cs =>
      right
      obtain ⟨-, -, hcr, hcn⟩ := no_special_of_not_needsQuote d q (c :: cs)
        (by simpa using hnq) c (List.mem_cons_self c cs)
      exact ⟨c, cs, hser, hcr, hcn⟩

theorem intercalate_head_cases (d q : Char) (hdr : d ≠ '\r') (hdn : d ≠ '\n')
    (hqr : q ≠ '\r') (hqn : q ≠ '\n') (F : List (List Char)) :
    List.intercalate [d] (F.map (serField d q)) = [] ∨
    ∃ c cs, List.intercalate [d] (F.map (serField d q)) = c :: cs ∧
      c ≠ '\r' ∧ c ≠ '\n' := by
  cases F with
  | nil => left; rw [List.map_nil, intercalate_nil_eq]
  | cons f rest =>
    cases rest with
    | nil =>
      rw [List.map_cons, List.map_nil, intercalate_single]
      exact serField_head_cases d q hqr hqn f
    | cons f2 rest2 =>
      right
      have he : List.intercalate [d] ((f :: f2 :: rest2).map (serField d q))
          = serField d q f ++
            ([d] ++ List.intercalate [d] ((f2 :: rest2).map (serField d q))) := by
        rw [List.map_cons]
        exact intercalate_cons2 [d] (serField d q f) (serField d q f2)
          (rest2.map (serField d q))
      rcases serField_head_cases d q hqr hqn f with h0 | ⟨c, cs, hc, hcr, hcn⟩
      · refine ⟨d, List.intercalate [d] ((f2 :: rest2).map (serField d q)), ?_, hdr, hdn⟩
        rw [he, h0, List.nil_append, List.singleton_append]
      · refine ⟨c, cs ++ ([d] ++ List.intercalate [d] ((f2 :: rest2).map (serField d q))),
          ?_, hcr, hcn⟩
        rw [he, hc, List.cons_append]

theorem processChars_record_eq (d q : Char) (strict : Bool) (c : Char)
    (rest : List Char) (hcr : c ≠ '\r') (hcn : c ≠ '\n') :
    processChars d q strict ⟨.startRecord, [], []⟩ (c :: rest)
      = processChars d q strict ⟨.startField, [], []⟩ (c :: rest) := by
  rw [processChars_cons, processChars_cons]
  have hstep : step d q strict ⟨.startRecord, [], []⟩ c
      = step d q strict ⟨.startField, [], []⟩ c := by
    have hnl : ¬ (c = '\n' ∨ c = '\r') := fun hx => hx.elim hcn hcr
    simp only [step]
    rw [if_neg hnl]
    rfl
  rw [hstep]

/-! Row count invariant: once the parser has left `startRecord`, finishing
the line always yields at least one field. -/

theorem step_preserves_inv (d q : Char) (strict : Bool) (s : PSt) (c : Char)
    (s' : PSt) (hs : step d q strict s c = .ok s')
    (hinv : s.st ≠ .startRecord ∧ (s.st = .eatCrnl → s.fields ≠ [])) :
    s'.st ≠ .startRecord ∧ (s'.st = .eatCrnl → s'.fields ≠ []) := by
  obtain ⟨st, cur, fds⟩ := s
  obtain ⟨h1, h2⟩ := hinv
  cases st with
  | startRecord => exact absurd rfl h1
  | startField =>
    simp only [step, stepStartField] at hs
    split_ifs at hs <;> cases hs <;> simp
  | inField =>
    simp only [step] at hs
    split_ifs at hs <;> cases hs <;> simp
  | inQuoted =>
    simp only [step] at hs
    split_ifs at hs <;> cases hs <;> simp
  | quoteInQuoted =>
    simp only [step] at hs
    split_ifs at hs <;> cases hs <;> simp
  | eatCrnl =>
    simp only [step] at hs
    split_ifs at hs
    cases hs
    exact ⟨h1, h2⟩

theorem processChars_inv (d q : Char) (strict : Bool) :
    ∀ (xs : List Char) (s s' : PSt), processChars d q strict s xs = .ok s' →
      (s.st ≠ .startRecord ∧ (s.st = .eatCrnl → s.fields ≠ [])) →
      (s'.st ≠ .startRecord ∧ (s'.st = .eatCrnl → s'.fields ≠ [])) := by
  intro xs
  induction xs with
  | nil =>
    intro s s' hs hinv
    cases hs
    exact hinv
  | cons c rest ih =>
    intro s s' hs hinv
    rw [processChars_cons] at hs
    cases hstep : step d q strict s c with
    | error e => rw [hstep] at hs; cases hs
    | ok s1 =>
      rw [hstep] at hs
      exact ih s1 s' hs (step_preserves_inv d q strict s c s1 hstep hinv)

theorem finishLine_pos (strict : Bool) (s : PSt) (G : List (List Char))
    (hfin : finishLine strict s = .ok G)
    (hinv : s.st ≠ .startRecord ∧ (s.st = .eatCrnl → s.fields ≠ [])) :
    1 ≤ G.length := by
  obtain ⟨st, cur, fds⟩ := s
  obtain ⟨h1, h2⟩ := hinv
  cases st with
  | startRecord => exact absurd rfl h1
  | startField => cases hfin; simp
  | inField => cases hfin; simp
  | quoteInQuoted => cases hfin; simp
  | eatCrnl =>
    cases hfin
    have hne : fds ≠ [] := h2 rfl
    have hpos := List.length_pos.mpr hne
    simpa [List.length_reverse] using hpos
  | inQuoted =>
    simp only [finishLine] at hfin
    split_ifs at hfin
    cases hfin
    simp

theorem parseLine_pos (d q : Char) (strict : Bool) (c0 : Char) (rest : List Char)
    (hcr : c0 ≠ '\r') (hcn : c0 ≠ '\n') (G : List (List Char))
    (h : parseLine d q strict (c0 :: rest) = .ok G) : 1 ≤ G.length := by
  unfold parseLine at h
  rw [processChars_record_eq d q strict c0 rest hcr hcn] at h
  cases hrun : processChars d q strict ⟨.startField, [], []⟩ (c0 :: rest) with
  | error e => rw [hrun] at h; cases h
  | ok s =>
    rw [hrun] at h
    have hinv := processChars_inv d q strict (c0 :: rest) _ s hrun
      ⟨by simp, by simp⟩
    exact finishLine_pos strict s G h hinv

/-! Python `strip`. -/

theorem dropWhile_head_not (p : Char → Bool) :
    ∀ (l : List Char) (c : Char) (cs : List Char),
      l.dropWhile p = c :: cs → p c = false := by
  intro l
  induction l with
  | nil => intro c cs h; cases h
  | cons x xs ih =>
    intro c cs h
    rw [List.dropWhile_cons] at h
    by_cases hx : p x = true
    · rw [if_pos hx] at h
      exact ih c cs h
    · rw [if_neg hx] at h
      cases h
      simpa using hx

theorem dropWhile_suffix_exists (p : Char → Bool) :
    ∀ l : List Char, ∃ t, l = t ++ l.dropWhile p := by
  intro l
  induction l with
  | nil => exact ⟨[], rfl⟩
  | cons x xs ih =>
    by_cases hx : p x = true
    · obtain ⟨t, ht⟩ := ih
      refine ⟨x :: t, ?_⟩
      rw [List.dropWhile_cons, if_pos hx, List.cons_append, ← ht]
    · refine ⟨[], ?_⟩
      rw [List.dropWhile_cons, if_neg hx, List.nil_append]

theorem mem_dropWhile_of_mem (p : Char → Bool) (x : Char) (hx : p x = false) :
    ∀ l : List Char, x ∈ l → x ∈ l.dropWhile p := by
  intro l
  induction l with
  | nil => intro h; cases h
  | cons c cs ih =>
    intro h
    rw [List.dropWhile_cons]
    by_cases hc : p c = true
    · rw [if_pos hc]
      rcases List.mem_cons.mp h with he | hm
      · subst he; rw [hx] at hc; cases hc
      · exact ih hm
    · rw [if_neg hc]
      exact h

theorem mem_pyStrip (x : Char) (hx : pyIsSpace x = false) (l : List Char)
    (h : x ∈ l) : x ∈ pyStrip l := by
  unfold pyStrip
  rw [List.mem_reverse]
  apply mem_dropWhile_of_mem pyIsSpace x hx
  rw [List.mem_reverse]
  exact mem_dropWhile_of_mem pyIsSpace x hx l h

theorem pyStrip_head_not_space (l : List Char) (c : Char) (cs : List Char)
    (h : pyStrip l = c :: cs) : pyIsSpace c = false := by
  obtain ⟨t, ht⟩ :=
    dropWhile_suffix_exists pyIsSpace ((l.dropWhile pyIsSpace).reverse)
  have hm : l.dropWhile pyIsSpace = pyStrip l ++ t.reverse := by
    have hrev := congrArg List.reverse ht
    rw [List.reverse_reverse, List.reverse_append] at hrev
    exact hrev
  rw [h] at hm
  exact dropWhile_head_not pyIsSpace l c (cs ++ t.reverse)
    (by rw [hm, List.cons_append])

theorem parseLine_writeRow (d q : Char) (strict : Bool)
    (hdq : d ≠ q) (hds : d ≠ ' ') (hdr : d ≠ '\r') (hdn : d ≠ '\n')
    (hqr : q ≠ '\r') (hqn : q ≠ '\n')
    (F : List (List Char)) (hF : F ≠ []) :
    ∃ G, parseLine d q strict (writeRow d q F ++ ['\r', '\n']) = .ok G ∧
      G.length = F.length := by
  by_cases hbody : List.intercalate [d] (F.map (serField d q)) = []
  · have hF1 : F.length = 1 := by
      cases F with
      | nil => exact absurd rfl hF
      | cons f rest =>
        cases rest with
        | nil => rfl
        | cons f2 rest2 =>
          rw [List.map_cons] at hbody
          exact absurd hbody (intercalate_cons2_ne_nil [d] (by simp) _ _ _)
    have hwr : writeRow d q F = [q, q] := by
      simp only [writeRow]
      rw [if_pos ⟨by omega, hbody⟩]
    have s1 : step d q strict ⟨.startField, [], []⟩ q = .ok ⟨.inQuoted, [], []⟩ := by
      simp [step, stepStartField, hqn, hqr]
    have s2 : step d q strict ⟨.inQuoted, [], []⟩ q = .ok ⟨.quoteInQuoted, [], []⟩ := by
      simp [step]
    have s3 : step d q strict ⟨.quoteInQuoted, [], []⟩ '\r'
        = .ok ⟨.eatCrnl, [], [[]]⟩ := by
      have hq' : ¬ ('\r' = q) := fun hx => hqr hx.symm
      have hd' : ¬ ('\r' = d) := fun hx => hdr hx.symm
      simp [step, hq', hd']
    have s4 : step d q strict ⟨.eatCrnl, [], [[]]⟩ '\n' = .ok ⟨.eatCrnl, [], [[]]⟩ := by
      simp [step]
    have e1 : processChars d q strict ⟨.startField, [], []⟩ [q, q, '\r', '\n']
        = processChars d q strict ⟨.inQuoted, [], []⟩ [q, '\r', '\n'] := by
      rw [processChars_cons, s1]
    have e2 : processChars d q strict ⟨.inQuoted, [], []⟩ [q, '\r', '\n']
        = processChars d q strict ⟨.quoteInQuoted, [], []⟩ ['\r', '\n'] := by
      rw [processChars_cons, s2]
    have e3 : processChars d q strict ⟨.quoteInQuoted, [], []⟩ ['\r', '\n']
        = processChars d q strict ⟨.eatCrnl, [], [[]]⟩ ['\n'] := by
      rw [processChars_cons, s3]
    have e4 : processChars d q strict ⟨.eatCrnl, [], [[]]⟩ ['\n']
        = .ok ⟨.eatCrnl, [], [[]]⟩ := by
      rw [processChars_cons, s4]
      rfl
    have hrun : processChars d q strict ⟨.startRecord, [], []⟩ [q, q, '\r', '\n']
        = .ok ⟨.eatCrnl, [], [[]]⟩ := by
      rw [processChars_record_eq d q strict q ([q, '\r', '\n']) hqr hqn,
        e1, e2, e3, e4]
    refine ⟨[[]], ?_, by rw [hF1]; rfl⟩
    rw [hwr]
    show parseLine d q strict [q, q, '\r', '\n'] = .ok [[]]
    simp only [parseLine]
    rw [hrun]
    rfl
  · have hwr : writeRow d q F = List.intercalate [d] (F.map (serField d q)) := by
      simp only [writeRow]
      rw [if_neg (fun hx => hbody hx.2)]
    obtain ⟨c, cs, hcons, hcr2, hcn2⟩ :=
      (intercalate_head_cases d q hdr hdn hqr hqn F).resolve_left hbody
    obtain ⟨st1, cur1, fds1, hrun1, hst1, hlen1⟩ :=
      processChars_row d q strict hdq hds hdr hdn hqr hqn F [] [] hF
    have hcrlf := processChars_crlf d q strict cur1 fds1 st1 hdr hqr hst1
    have hrun : processChars d q strict ⟨.startRecord, [], []⟩
        (List.intercalate [d] (F.map (serField d q)) ++ ['\r', '\n'])
        = .ok ⟨.eatCrnl, [], cur1 :: fds1⟩ := by
      rw [hcons, List.cons_append,
        processChars_record_eq d q strict c (cs ++ ['\r', '\n']) hcr2 hcn2,
        ← List.cons_append, ← hcons, processChars_append, hrun1]
      exact hcrlf
    refine ⟨(cur1 :: fds1).reverse, ?_, ?_⟩
    · rw [hwr]
      simp only [parseLine]
      rw [hrun]
      rfl
    · have hFpos : 0 < F.length := List.length_pos.mpr hF
      simp only [List.length_nil] at hlen1
      simp only [List.length_reverse, List.length_cons]
      omega

/-- Claim C7: whenever the filter takes the repair path and returns a
replacement line, splitting that replacement with the field splitter under
the same delimiter/quote/strictness settings succeeds and yields at least
one field. -/
theorem repair_output_splittable (q d : Char) (strict : Bool) (l r : List Char)
    (hdq : d ≠ q) (hds : d ≠ ' ') (hdr : d ≠ '\r') (hdn : d ≠ '\n')
    (hqr : q ≠ '\r') (hqn : q ≠ '\n') (hqsp : pyIsSpace q = false)
    (hcount : countSub [q] (nulsub l) ≠ 0)
    (hsafe : quoteSafe q d (nulsub l) = false)
    (hrep : repair (some q) d strict l = .ok r) :
    ∃ G, parseLine d q strict r = .ok G ∧ 1 ≤ G.length := by
  rw [repair_some_unfold, if_neg hcount, if_neg (by rw [hsafe]; simp)] at hrep
  simp only [repairRewrite] at hrep
  cases hparse : parseLine d q strict (pyStrip (nulsub l)) with
  | error e => rw [hparse] at hrep; cases hrep
  | ok F =>
    rw [hparse] at hrep
    have hre : r = writeRow d q F ++ ['\r', '\n'] := (Except.ok.inj hrep).symm
    have hqmem : q ∈ nulsub l := mem_of_countSub_head q [] (nulsub l) hcount
    have hqstrip : q ∈ pyStrip (nulsub l) := mem_pyStrip q hqsp (nulsub l) hqmem
    obtain ⟨c0, rest0, hc0⟩ : ∃ c0 rest0, pyStrip (nulsub l) = c0 :: rest0 := by
      cases hx : pyStrip (nulsub l) with
      | nil => rw [hx] at hqstrip; cases hqstrip
      | cons a b => exact ⟨a, b, rfl⟩
    have hc0sp := pyStrip_head_not_space (nulsub l) c0 rest0 hc0
    have hc0r : c0 ≠ '\r' := by
      intro he
      rw [he] at hc0sp
      rw [(by decide : pyIsSpace '\r' = true)] at hc0sp
      cases hc0sp
    have hc0n : c0 ≠ '\n' := by
      intro he
      rw [he] at hc0sp
      rw [(by decide : pyIsSpace '\n' = true)] at hc0sp
      cases hc0sp
    have hF1 : 1 ≤ F.length := by
      rw [hc0] at hparse
      exact parseLine_pos d q strict c0 rest0 hc0r hc0n F hparse
    have hFne : F ≠ [] := by
      intro hx
      rw [hx] at hF1
      simp at hF1
    obtain ⟨G, hG, hGlen⟩ :=
      parseLine_writeRow d q strict hdq hds hdr hdn hqr hqn F hFne
    refine ⟨G, ?_, ?_⟩
    · rw [hre]
      exact hG
    · omega

/-- Witness for C7 at the spec's scenario 2: repairing `a,b"c,d` yields
`a,"b""c",d` plus the dialect terminator, which re-splits into three
fields. -/
theorem repair_output_splittable_witness :
    ∃ G, parseLine ',' '"' false ("a,\"b\"\"c\",d\r\n".toList) = .ok G ∧
      1 ≤ G.length :=
  repair_output_splittable '"' ',' false ("a,b\"c,d".toList)
    ("a,\"b\"\"c\",d\r\n".toList) (by decide) (by decide) (by decide) (by decide)
    (by decide) (by decide) (by decide) (by decide) (by decide) rfl

/-- Claim C4: on the repair path the replacement is the lenient single-line
parse of the stripped line re-serialised in the same dialect: every field
containing the delimiter, the quote character or a line-terminator character
is quoted with embedded quotes doubled, and the replacement ends with the
dialect's terminator `"\r\n"`; the witness shows `a,b"c,d` becoming
`a,"b""c",d` plus that terminator. -/
theorem repair_rewrites_canonical (q d : Char) (strict : Bool) (l : List Char)
    (F : List (List Char))
    (hcount : countSub [q] (nulsub l) ≠ 0)
    (hsafe : quoteSafe q d (nulsub l) = false)
    (hparse : parseLine d q strict (pyStrip (nulsub l)) = .ok F) :
    repair (some q) d strict l = .ok (writeRow d q F ++ ['\r', '\n']) ∧
    ∀ f ∈ F, (d ∈ f ∨ q ∈ f ∨ '\r' ∈ f ∨ '\n' ∈ f) →
      serField d q f = q :: (doubleQ q f ++ [q]) := by
  constructor
  · rw [repair_some_unfold, if_neg hcount, if_neg (by rw [hsafe]; simp)]
    simp only [repairRewrite, hparse]
  · intro f hf hmem
    have hneed : fieldNeedsQuote d q f = true := by
      simp only [fieldNeedsQuote, List.any_eq_true]
      rcases hmem with h | h | h | h
      · exact ⟨d, h, by simp⟩
      · exact ⟨q, h, by simp⟩
      · exact ⟨'\r', h, by simp⟩
      · exact ⟨'\n', h, by simp⟩
    simp [serField, hneed]

/-- Witness for C4 at the spec's scenario 2. -/
theorem repair_rewrites_canonical_witness :
    repair (some '"') ',' false ("a,b\"c,d".toList)
      = .ok ("a,\"b\"\"c\",d\r\n".toList) :=
  (repair_rewrites_canonical '"' ',' false ("a,b\"c,d".toList)
    [['a'], ['b', '"', 'c'], ['d']] (by decide) (by decide) rfl).1

/-- Counterexample to claim C2 as stated: repairing `" a",b"c` yields
` a,"b""c"` plus the terminator, whose leading space the second pass strips
away, so `repair (repair line)` differs from `repair line`. -/
theorem repair_idem_counterexample :
    repair (some '"') ',' false ("\" a\",b\"c".toList)
      = .ok (" a,\"b\"\"c\"\r\n".toList) ∧
    repair (some '"') ',' false (" a,\"b\"\"c\"\r\n".toList)
      = .ok ("a,\"b\"\"c\"\r\n".toList) ∧
    (" a,\"b\"\"c\"\r\n".toList) ≠ ("a,\"b\"\"c\"\r\n".toList) := by
  refine ⟨rfl, rfl, by decide⟩

theorem mem_intercalate_cases (x d : Char) :
    ∀ L : List (List Char), x ∈ List.intercalate [d] L → x = d ∨ ∃ l ∈ L, x ∈ l := by
  intro L
  induction L with
  | nil =>
    intro h
    rw [intercalate_nil_eq] at h
    cases h
  | cons a rest ih =>
    cases rest with
    | nil =>
      intro h
      rw [intercalate_single] at h
      exact Or.inr ⟨a, List.mem_cons_self a [], h⟩
    | cons b t =>
      intro h
      rw [intercalate_cons2] at h
      rcases List.mem_append.mp h with h | h
      · exact Or.inr ⟨a, List.mem_cons_self _ _, h⟩
      · rcases List.mem_append.mp h with h | h
        · exact Or.inl (List.mem_singleton.mp h)
        · rcases ih h with h | ⟨f, hf, hx⟩
          · exact Or.inl h
          · exact Or.inr ⟨f, List.mem_cons_of_mem a hf, hx⟩

/-- Claim C2, amended: repairing an already-repaired line is a no-op for
every line the heuristic passes through unchanged, and for every repair-path
line whose parsed fields are free of the quote character, the delimiter,
line-terminator characters and NUL (so the replacement is serialised without
quoting) and which is not the single-empty-field record. On other repair
outputs a second pass may differ: the unconditional strip and the
skip-initial-space setting can drop whitespace that the canonical form
carries in unquoted fields (see the counterexample). -/
theorem repair_idem_amended (q d : Char) (strict : Bool) (l : List Char)
    (F : List (List Char))
    (hqd : q ≠ d) (hqr : q ≠ '\r') (hqn : q ≠ '\n') (hd0 : d ≠ '\x00')
    (h : repair (some q) d strict l = .ok (nulsub l)
      ∨ (countSub [q] (nulsub l) ≠ 0 ∧ quoteSafe q d (nulsub l) = false ∧
          parseLine d q strict (pyStrip (nulsub l)) = .ok F ∧
          (∀ f ∈ F, ∀ c ∈ f, c ≠ q ∧ c ≠ d ∧ c ≠ '\r' ∧ c ≠ '\n' ∧ c ≠ '\x00') ∧
          F ≠ [[]])) :
    ∀ r, repair (some q) d strict l = .ok r → repair (some q) d strict r = .ok r := by
  intro r hr
  rcases h with h | ⟨hcount, hsafe, hparse, hfields, hFne1⟩
  · have hreq : r = nulsub l := by
      rw [h] at hr
      exact (Except.ok.inj hr).symm
    subst hreq
    calc repair (some q) d strict (nulsub l)
        = repair (some q) d strict l := repair_nulsub (some q) d strict l
      _ = .ok (nulsub l) := h
  · have hrw : repair (some q) d strict l = .ok (writeRow d q F ++ ['\r', '\n']) := by
      rw [repair_some_unfold, if_neg hcount, if_neg (by rw [hsafe]; simp)]
      simp only [repairRewrite, hparse]
    have hreq : r = writeRow d q F ++ ['\r', '\n'] := by
      rw [hrw] at hr
      exact (Except.ok.inj hr).symm
    have hser : ∀ f ∈ F, serField d q f = f := by
      intro f hf
      have hno : fieldNeedsQuote d q f = false := by
        cases hx : fieldNeedsQuote d q f with
        | false => rfl
        | true =>
          exfalso
          simp only [fieldNeedsQuote, List.any_eq_true] at hx
          obtain ⟨c, hc, hcx⟩ := hx
          obtain ⟨h1, h2, h3, h4, -⟩ := hfields f hf c hc
          simp only [Bool.or_eq_true, beq_iff_eq] at hcx
          rcases hcx with ((hx | hx) | hx) | hx
          · exact h2 hx
          · exact h1 hx
          · exact h3 hx
          · exact h4 hx
      simp [serField, hno]
    have hmap : F.map (serField d q) = F := by
      calc F.map (serField d q) = F.map id := List.map_congr_left hser
        _ = F := List.map_id F
    have hbody_ne : ¬ (F.length ≠ 0 ∧ List.intercalate [d] (F.map (serField d q)) = []) := by
      rintro ⟨hlen, hnil⟩
      rw [hmap] at hnil
      cases F with
      | nil => exact hlen rfl
      | cons f rest =>
        cases rest with
        | nil =>
          rw [intercalate_single] at hnil
          exact hFne1 (by rw [hnil])
        | cons f2 t => exact intercalate_cons2_ne_nil [d] (by simp) f f2 t hnil
    have hwr : writeRow d q F = List.intercalate [d] F := by
      simp only [writeRow]
      rw [if_neg hbody_ne, hmap]
    have hqnot : q ∉ writeRow d q F ++ ['\r', '\n'] := by
      rw [hwr]
      intro hmem
      rcases List.mem_append.mp hmem with hmem | hmem
      · rcases mem_intercalate_cases q d F hmem with he | ⟨f, hf, hx⟩
        · exact hqd he
        · exact (hfields f hf q hx).1 rfl
      · rcases List.mem_cons.mp hmem with he | hmem
        · exact hqr he
        · exact hqn (List.mem_singleton.mp hmem)
    have hnulnot : ∀ c ∈ writeRow d q F ++ ['\r', '\n'], c ≠ '\x00' := by
      rw [hwr]
      intro c hmem
      rcases List.mem_append.mp hmem with hmem | hmem
      · rcases mem_intercalate_cases c d F hmem with he | ⟨f, hf, hx⟩
        · rw [he]; exact hd0
        · exact (hfields f hf c hx).2.2.2.2
      · rcases List.mem_cons.mp hmem with he | hmem
        · rw [he]; decide
        · rw [List.mem_singleton.mp hmem]; decide
    subst hreq
    rw [repair_some_unfold, nulsub_eq_self _ hnulnot,
      if_pos (countSub_head_zero q [] _ hqnot)]

/-- Witness for the amended C2: `"a",b` is rewritten to `a,b` plus the
terminator, and repairing that replacement changes nothing. -/
theorem repair_idem_amended_witness :
    repair (some '"') ',' false ("a,b\r\n".toList) = .ok ("a,b\r\n".toList) :=
  repair_idem_amended '"' ',' false ("\"a\",b".toList) [['a'], ['b']]
    (by decide) (by decide) (by decide) (by decide)
    (Or.inr ⟨by decide, by decide, rfl, by decide, by decide⟩)
    ("a,b\r\n".toList) rfl

end CsvUtils
